import Mathlib

/-!
Verification of the quilthelp `transform.py` core: the HelpIndex markup
parser, the inline field disambiguator, and the resource resolver.
Strings are modelled as lists of characters so that the line matchers
(which mirror the Python regular expressions) stay amenable to proof.
-/

namespace QuiltHelp

/-- A string, modelled as its list of characters. -/
abbrev Chars := List Char

/-- Characters removed by Python's `str.strip()` (ASCII whitespace). -/
def isSpaceCh (c : Char) : Bool :=
  decide (c = ' ') || decide (c = '\t') || decide (c = '\n') ||
  decide (c = '\r') || decide (c = '\x0b') || decide (c = '\x0c')

/-- Python `str.strip()`: drop whitespace from both ends. -/
def pyStrip (cs : Chars) : Chars :=
  ((cs.dropWhile isSpaceCh).reverse.dropWhile isSpaceCh).reverse

/-- Python `str.upper()` (ASCII). -/
def toUpperChars (cs : Chars) : Chars := cs.map Char.toUpper

/-- Python `str.lower()` (ASCII). -/
def toLowerChars (cs : Chars) : Chars := cs.map Char.toLower

/-- Python `str.split(sep)` for a one-character separator, generalized to a
character predicate: split at every matching character, keeping empty parts.
`splitBy p []` is `[[]]`, matching Python's `"".split(',') == ['']`. -/
def splitBy (p : Char → Bool) : Chars → List Chars
  | [] => [[]]
  | c :: rest =>
    let r := splitBy p rest
    if p c then [] :: r
    else
      match r with
      | [] => [[c]]
      | q :: qs => (c :: q) :: qs

/-- Python `content.split(',')`. -/
def splitComma (cs : Chars) : List Chars := splitBy (fun c => decide (c = ',')) cs

/-- Python `','.join(parts)`. -/
def joinComma : List Chars → Chars
  | [] => []
  | [q] => q
  | q :: qs => q ++ ',' :: joinComma qs

/-- The class `[A-Z]` of the brand regular expression. -/
def isUpperAZ (c : Char) : Bool := decide ('A' ≤ c) && decide (c ≤ 'Z')

/-- The class `[A-Z0-9]` of the brand regular expression. -/
def isAZ09 (c : Char) : Bool := isUpperAZ c || (decide ('0' ≤ c) && decide (c ≤ '9'))

/-- The class `\d` of the item regular expression (ASCII digits). -/
def isDigitCh (c : Char) : Bool := decide ('0' ≤ c) && decide (c ≤ '9')

/-- The token shape `[A-Z]+[A-Z0-9]*`: nonempty, first character an uppercase
letter, remaining characters uppercase letters or digits. -/
def isBrandToken : Chars → Bool
  | [] => false
  | c :: cs => isUpperAZ c && cs.all isAZ09

/-- The fixed section vocabulary of `transform.py` (the alternation in the
section regular expressions, equal to `SECTION_ORDER`). -/
def sectionTokens : List Chars :=
  [("HELP".data), ("TUTORIALS".data), ("VIDEOS".data), ("DESIGNERS".data)]

/-- Matches `re.match(r'^<(HELP|TUTORIALS|VIDEOS|DESIGNERS)>$', line)`: the matched
section token, if any. -/
def sectionOpenMatch (t : Chars) : Option Chars :=
  sectionTokens.find? (fun s => t == '<' :: (s ++ ['>']))

/-- Matches `re.match(r'^</(HELP|TUTORIALS|VIDEOS|DESIGNERS)>$', line)`. -/
def isSectionClose (t : Chars) : Bool :=
  sectionTokens.any (fun s => t == '<' :: ('/' :: (s ++ ['>'])))

/-- Matches `re.match(r'^<([A-Z]+[A-Z0-9]*)>$', line)`: the captured brand token. -/
def brandOpenMatch (t : Chars) : Option Chars :=
  match t with
  | '<' :: rest =>
    if decide (rest.getLastD ' ' = '>') && isBrandToken rest.dropLast then
      some rest.dropLast
    else none
  | _ => none

/-- Matches `re.match(r'^</[A-Z]+[A-Z0-9]*>$', line)`. -/
def isBrandClose (t : Chars) : Bool :=
  match t with
  | '<' :: ('/' :: rest) => decide (rest.getLastD ' ' = '>') && isBrandToken rest.dropLast
  | _ => false

/-- Matches `re.match(r'<(\d+)>(.*?)</\1>$', line)`: a line consisting of `<N>`, an
arbitrary payload, and a matching `</N>` at the end; returns the payload.
The digit run after `<` is maximal (the regex backtracking never shortens it,
since a shorter run would be followed by another digit, not `>`). -/
def itemMatch (t : Chars) : Option Chars :=
  match t with
  | '<' :: rest =>
    if rest.takeWhile isDigitCh = [] then none
    else
      match rest.drop (rest.takeWhile isDigitCh).length with
      | '>' :: body =>
        if ('<' :: ('/' :: (rest.takeWhile isDigitCh ++ ['>']))).isSuffixOf body then
          some (body.take
            (body.length - ('<' :: ('/' :: (rest.takeWhile isDigitCh ++ ['>']))).length))
        else none
      | _ => none
  | _ => none

/-- One help resource entry, as built by `parse_help_index`. -/
structure Item where
  title : Chars
  resource : Chars
  image : Chars
  category : Chars
deriving DecidableEq, Repr

/-- The two recognized category tokens (keys of `PDF_DIRS`). -/
def CATEGORY_TOKENS : List Chars := [("help pdh".data), ("tutorial pdt".data)]

/-- The field-dispatch of `parse_help_index` (lines 83-122 of
`transform.py`): given the comma-separated parts of an item payload, recover
`(title, resource, image, category)`; `none` when fewer than 2 parts. -/
def disambiguateFields (parts : List Chars) : Option (Chars × Chars × Chars × Chars) :=
  if 2 ≤ parts.length then
    if parts.length = 2 then
      some (pyStrip (parts.headD []), pyStrip (parts.getD 1 []), [], [])
    else if parts.length = 3 then
      if pyStrip (parts.getLastD []) ∈ CATEGORY_TOKENS then
        some (pyStrip (parts.headD []), pyStrip (parts.getD 1 []), [], pyStrip (parts.getD 2 []))
      else
        some (pyStrip (parts.headD []), pyStrip (parts.getD 1 []), pyStrip (parts.getD 2 []), [])
    else if parts.length = 4 then
      some (pyStrip (parts.headD []), pyStrip (parts.getD 1 []), pyStrip (parts.getD 2 []),
        pyStrip (parts.getD 3 []))
    else
      if pyStrip (parts.getLastD []) ∈ CATEGORY_TOKENS then
        some (pyStrip (parts.headD []), joinComma ((parts.drop 1).dropLast.dropLast),
          pyStrip (parts.dropLast.getLastD []), pyStrip (parts.getLastD []))
      else
        some (pyStrip (parts.headD []), joinComma ((parts.drop 1).dropLast),
          pyStrip (parts.getLastD []), [])
  else none

/-- Build an `Item` from a stripped nonempty non-`EMPTY` payload: split on
commas, dispatch the fields, and keep the entry only when both the title and
the resource are nonempty (`if title and resource` in the source). -/
def mkItem (content : Chars) : Option Item :=
  match disambiguateFields (splitComma content) with
  | some (t, r, i, c) => if t ≠ [] ∧ r ≠ [] then some (Item.mk t r i c) else none
  | none => none

/-- A brand's sections: section name to retained items, in insertion order
(`defaultdict(list)` keyed in first-append order). -/
abbrev SectionDict := List (Chars × List Item)

/-- All brands with their sections, in first-seen brand order (the
`brand_order` list zipped with `brand_dict`). -/
abbrev BrandDict := List (Chars × SectionDict)

/-- Replace brand `b`'s section dictionary by `f` applied to it. -/
def updateBrand (d : BrandDict) (b : Chars) (f : SectionDict → SectionDict) : BrandDict :=
  d.map (fun p => if p.1 = b then (p.1, f p.2) else p)

/-- Python `brand_dict[brand][section].append(item)`: append to the section's list,
creating the section entry at the end when absent. -/
def appendItem (sd : SectionDict) (s : Chars) (it : Item) : SectionDict :=
  if sd.any (fun q => decide (q.1 = s)) then
    sd.map (fun q => if q.1 = s then (q.1, q.2 ++ [it]) else q)
  else sd ++ [(s, [it])]

/-- Does the brand dictionary already have brand `b`
(`current_brand not in brand_order` in the source)? -/
def containsKey (d : BrandDict) (b : Chars) : Bool :=
  d.any (fun p => decide (p.1 = b))

/-- The loop state of `parse_help_index`: the accumulated brand dictionary and
the `current_brand` / `current_section` variables. -/
structure PState where
  dict : BrandDict
  curBrand : Option Chars
  curSection : Option Chars
deriving DecidableEq, Repr

/-- The body of one iteration of the line loop of `parse_help_index` (lines
44-131 of `transform.py`), on the already-stripped line `t`: try — in this
order — section open, section close, brand open, brand close, and (only with
both a current brand and a current section) the indexed item pattern. -/
def stepStripped (st : PState) (t : Chars) : PState :=
  match sectionOpenMatch t with
  | some s => { st with curSection := some s }
  | none =>
    if isSectionClose t then { st with curSection := none }
    else
      match brandOpenMatch t with
      | some b =>
        if containsKey st.dict b then { st with curBrand := some b }
        else { st with curBrand := some b, dict := st.dict ++ [(b, [])] }
      | none =>
        if isBrandClose t then { st with curBrand := none }
        else
          match st.curBrand, st.curSection with
          | some b, some s =>
            match itemMatch t with
            | some raw =>
              if pyStrip raw ≠ [] ∧ toUpperChars (pyStrip raw) ≠ ("EMPTY".data) then
                match mkItem (pyStrip raw) with
                | some it =>
                  { st with dict := updateBrand st.dict b (fun sd => appendItem sd s it) }
                | none => st
              else st
            | none => st
          | _, _ => st

/-- One iteration of the line loop: `line = line.strip()` then the dispatch. -/
def step (st : PState) (rawLine : Chars) : PState :=
  stepStripped st (pyStrip rawLine)

/-- The function `parse_help_index` on the document's lines: fold the line loop and return
the ordered brand structure (`brands` in the source). -/
def parse_help_index (lines : List Chars) : BrandDict :=
  (lines.foldl step (PState.mk [] none none)).dict

/-- The table `PDF_DIRS`: the category-to-directory mapping of the resolver. -/
def PDF_DIRS : List (Chars × Chars) :=
  [(("help pdh".data), ("Extras/Help/Help".data)),
   (("tutorial pdt".data), ("Extras/Help/Tutorials".data))]

/-- The function `get_resource_path` (lines 139-153 of `transform.py`), with the mutable
`self.referenced_files` list threaded explicitly: returns the resolved path
and the new referenced-files list. -/
def get_resource_path (referenced_files : List Chars) (item : Item) : Chars × List Chars :=
  if ("http".data).isPrefixOf item.resource then (item.resource, referenced_files)
  else
    let pdf_dir := (PDF_DIRS.lookup item.category).getD ("Extras/Help/Help".data)
    let full_path := pdf_dir ++ '/' :: item.resource
    (full_path, referenced_files ++ [full_path])

/-- Which output files `transform` writes, in order. -/
inductive OutputFile
  | html
  | checklist
deriving DecidableEq, Repr

/-- The function `parse_help_index` begins by checking that the input file exists and
raises `FileNotFoundError` otherwise (lines 34-35); the file-system read is
modelled by an optional list of lines, the exception by `Except`. -/
def parse_help_index_checked (file : Option (List Chars)) : Except Chars BrandDict :=
  match file with
  | none => Except.error ("HelpIndex.txt not found".data)
  | some lines => Except.ok (parse_help_index lines)

/-- The function `transform` (lines 576-593): parse first, and only on success generate
and write the HTML and then the checklist (the writes are modelled as the
list of output files produced, in order). -/
def transform (file : Option (List Chars)) : Except Chars (List OutputFile) :=
  match parse_help_index_checked file with
  | Except.error e => Except.error e
  | Except.ok _brands => Except.ok [OutputFile.html, OutputFile.checklist]

/-- All items anywhere in a brand dictionary, in order. -/
def allItems (d : BrandDict) : List Item :=
  (d.map (fun p => (p.2.map (fun q => q.2)).flatten)).flatten

/-- Record a brand unless already seen (first-seen order). -/
def insertFirstSeen (acc : List Chars) (b : Chars) : List Chars :=
  if b ∈ acc then acc else acc ++ [b]

/-- First occurrences of a token sequence, in order of first appearance. -/
def firstSeen (bs : List Chars) : List Chars := bs.foldl insertFirstSeen []

/-- The brand token registered by one stripped line, if any: a brand-open
match, unless the line is a section-open tag (section tags are matched first
in the loop and therefore shadow the brand pattern). -/
def strippedBrandEvent (t : Chars) : Option Chars :=
  match sectionOpenMatch t with
  | some _ => none
  | none => brandOpenMatch t

/-- The brand token registered by one raw line, if any. -/
def lineBrandEvent (l : Chars) : Option Chars := strippedBrandEvent (pyStrip l)

/-- All brand-open tokens of a document, in document order, with repeats. -/
def brandEvents (lines : List Chars) : List Chars := lines.filterMap lineBrandEvent

/-- Modelled from the spec: the word tokenization of the listing-index fuzzy
resolver (§4.4, second resolution mode), whose source is not under `src/`
(only `transform.py` is provided) — "tokenizing both the query item text and
every candidate description into lowercase word sets". -/
def wordSet (s : Chars) : List Chars :=
  ((splitBy isSpaceCh (toLowerChars s)).filter (fun w => decide (w ≠ []))).dedup

/-- Modelled from the spec: "scoring each candidate by the size of the
intersection" of the two lowercase word sets. -/
def fuzzyScore (query desc : Chars) : Nat :=
  ((wordSet query).filter (fun w => decide (w ∈ wordSet desc))).length

/-- Modelled from the spec: select the scored candidate with the strictly
highest score; on ties the earlier (first-encountered) candidate wins. -/
def bestOf : List (Chars × Nat) → Option (Chars × Nat)
  | [] => none
  | sp :: rest =>
    match bestOf rest with
    | none => some sp
    | some b => if sp.2 < b.2 then some b else some sp

/-- Modelled from the spec: the approximate match of the second resolution
mode — the best-scoring candidate's path, "provided the intersection has at
least 2 common words", else no match. -/
def fuzzy_match (query : Chars) (cands : List (Chars × Chars)) : Option Chars :=
  match bestOf (cands.map (fun dp => (dp.2, fuzzyScore query dp.1))) with
  | some ps => if 2 ≤ ps.2 then some ps.1 else none
  | none => none

/-- Modelled from the spec: the second resolution mode over the Listing
Index — "exact description match first; if absent, compute an approximate
match". Candidates are (description, path) pairs in index order. -/
def resolve_listing (query : Chars) (cands : List (Chars × Chars)) : Option Chars :=
  match cands.lookup query with
  | some p => some p
  | none => fuzzy_match query cands

/-! ## Basic lemmas about the character-list operations -/

theorem splitBy_ne_nil (p : Char → Bool) : ∀ cs : Chars, splitBy p cs ≠ [] := by
  intro cs
  induction cs with
  | nil => simp [splitBy]
  | cons c rest ih =>
    simp only [splitBy]
    by_cases h : p c
    · simp [h]
    · simp only [h]
      cases hr : splitBy p rest with
      | nil => simp
      | cons q qs => simp

theorem splitComma_ne_nil (cs : Chars) : splitComma cs ≠ [] := splitBy_ne_nil _ cs

/-- Rejoining the comma-split parts with commas recovers the original string:
embedded commas round-trip exactly. -/
theorem joinComma_splitComma : ∀ cs : Chars, joinComma (splitComma cs) = cs := by
  intro cs
  induction cs with
  | nil => rfl
  | cons c rest ih =>
    obtain ⟨q, qs, hqq⟩ := List.exists_cons_of_ne_nil (splitComma_ne_nil rest)
    by_cases hc : c = ','
    · subst hc
      have h1 : splitComma (',' :: rest) = [] :: splitComma rest := by
        simp [splitComma, splitBy]
      rw [h1, hqq]
      rw [hqq] at ih
      simpa [joinComma] using ih
    · have hqq' : splitBy (fun x => decide (x = ',')) rest = q :: qs := hqq
      have h1 : splitComma (c :: rest) = (c :: q) :: qs := by
        simp only [splitComma, splitBy, hqq']
        simp [hc]
      rw [h1]
      rw [hqq] at ih
      cases qs with
      | nil =>
        simp only [joinComma] at ih ⊢
        rw [ih]
      | cons q' qs' =>
        simp only [joinComma] at ih ⊢
        rw [List.cons_append, ih]

/-! ## Shape lemmas for the line matchers -/

theorem mem_sectionTokens_cases {s : Chars} (h : s ∈ sectionTokens) :
    s = ("HELP".data) ∨ s = ("TUTORIALS".data) ∨ s = ("VIDEOS".data) ∨
      s = ("DESIGNERS".data) := by
  simpa [sectionTokens] using h

theorem isBrandToken_cons (c : Char) (cs : Chars) :
    isBrandToken (c :: cs) = (isUpperAZ c && cs.all isAZ09) := rfl

theorem sectionOpenMatch_eq_some {t s : Chars} (h : sectionOpenMatch t = some s) :
    s ∈ sectionTokens ∧ t = '<' :: (s ++ ['>']) := by
  refine ⟨List.mem_of_find?_eq_some h, ?_⟩
  have hp := List.find?_some h
  have hp' : (t == '<' :: (s ++ ['>'])) = true := hp
  exact eq_of_beq hp'

theorem isSectionClose_eq_true {t : Chars} (h : isSectionClose t = true) :
    ∃ s ∈ sectionTokens, t = '<' :: ('/' :: (s ++ ['>'])) := by
  unfold isSectionClose at h
  rw [List.any_eq_true] at h
  obtain ⟨s, hs, hp⟩ := h
  exact ⟨s, hs, eq_of_beq hp⟩

theorem brandOpenMatch_shape {t b : Chars} (h : brandOpenMatch t = some b) :
    t = '<' :: (b ++ ['>']) ∧ isBrandToken b = true := by
  cases t with
  | nil => simp [brandOpenMatch] at h
  | cons c0 rest =>
    by_cases h0 : c0 = '<'
    · subst h0
      by_cases hcond : (decide (rest.getLastD ' ' = '>') && isBrandToken rest.dropLast) = true
      · have heq : brandOpenMatch ('<' :: rest) = some rest.dropLast := by
          simp only [brandOpenMatch, hcond, if_true]
        rw [heq] at h
        injection h with hb
        rw [Bool.and_eq_true, decide_eq_true_eq] at hcond
        obtain ⟨hlast, htok⟩ := hcond
        have hne : rest ≠ [] := by
          intro he
          rw [he] at hlast
          exact absurd hlast (by decide)
        have hgl : rest.getLast hne = '>' := by
          rw [List.getLastD_eq_getLast?, List.getLast?_eq_getLast rest hne,
            Option.getD_some] at hlast
          exact hlast
        have hsplit := List.dropLast_append_getLast hne
        rw [hgl] at hsplit
        constructor
        · rw [← hb, hsplit]
        · rw [← hb]
          exact htok
      · have heq : brandOpenMatch ('<' :: rest) = none := by
          simp only [brandOpenMatch]
          rw [if_neg hcond]
        rw [heq] at h
        exact Option.noConfusion h
    · have heq : brandOpenMatch (c0 :: rest) = none := by
        simp [brandOpenMatch, h0]
      rw [heq] at h
      exact Option.noConfusion h

theorem isBrandClose_shape {t : Chars} (h : isBrandClose t = true) :
    ∃ mid, t = '<' :: ('/' :: (mid ++ ['>'])) ∧ isBrandToken mid = true := by
  cases t with
  | nil => simp [isBrandClose] at h
  | cons c0 rest0 =>
    by_cases h0 : c0 = '<'
    · subst h0
      cases rest0 with
      | nil => simp [isBrandClose] at h
      | cons c1 rest =>
        by_cases h1 : c1 = '/'
        · subst h1
          have heq : isBrandClose ('<' :: ('/' :: rest)) =
              (decide (rest.getLastD ' ' = '>') && isBrandToken rest.dropLast) := rfl
          rw [heq, Bool.and_eq_true, decide_eq_true_eq] at h
          obtain ⟨hlast, htok⟩ := h
          have hne : rest ≠ [] := by
            intro he
            rw [he] at hlast
            exact absurd hlast (by decide)
          have hgl : rest.getLast hne = '>' := by
            rw [List.getLastD_eq_getLast?, List.getLast?_eq_getLast rest hne,
              Option.getD_some] at hlast
            exact hlast
          have hsplit := List.dropLast_append_getLast hne
          rw [hgl] at hsplit
          exact ⟨rest.dropLast, by rw [hsplit], htok⟩
        · have heq : isBrandClose ('<' :: (c1 :: rest)) = false := by
            simp [isBrandClose, h1]
          rw [heq] at h
          exact Bool.noConfusion h
    · have heq : isBrandClose (c0 :: rest0) = false := by
        simp [isBrandClose, h0]
      rw [heq] at h
      exact Bool.noConfusion h

theorem itemMatch_shape {t c : Chars} (h : itemMatch t = some c) :
    ∃ d rest2, t = '<' :: (d :: rest2) ∧ isDigitCh d = true := by
  cases t with
  | nil => simp [itemMatch] at h
  | cons c0 rest =>
    by_cases h0 : c0 = '<'
    · subst h0
      cases rest with
      | nil => simp [itemMatch] at h
      | cons d rest2 =>
        refine ⟨d, rest2, rfl, ?_⟩
        by_cases hd : isDigitCh d = true
        · exact hd
        · exfalso
          have hds : (d :: rest2).takeWhile isDigitCh = [] := by
            rw [List.takeWhile_cons, if_neg (by simp [hd])]
          have hnone : itemMatch ('<' :: (d :: rest2)) = none := by
            simp only [itemMatch]
            rw [if_pos hds]
          rw [hnone] at h
          exact Option.noConfusion h
    · have hnone : itemMatch (c0 :: rest) = none := by
        simp [itemMatch, h0]
      rw [hnone] at h
      exact Option.noConfusion h

/-! ## Exclusion lemmas: the matchers tried earlier in the loop fail on lines
matched by a later pattern -/

theorem isDigitCh_not_upperAZ {c : Char} (h : isDigitCh c = true) : isUpperAZ c = false := by
  unfold isDigitCh at h
  rw [Bool.and_eq_true, decide_eq_true_eq, decide_eq_true_eq] at h
  have hA : ¬ ('A' ≤ c) := fun hA => absurd (le_trans hA h.2) (by decide)
  unfold isUpperAZ
  simp [hA]

theorem itemMatch_not_sectionOpen {t c : Chars} (h : itemMatch t = some c) :
    sectionOpenMatch t = none := by
  cases hso : sectionOpenMatch t with
  | none => rfl
  | some s =>
    obtain ⟨hmem, ht⟩ := sectionOpenMatch_eq_some hso
    rcases mem_sectionTokens_cases hmem with rfl | rfl | rfl | rfl <;>
    · have hnone : itemMatch t = none := by rw [ht]; decide
      rw [hnone] at h
      exact Option.noConfusion h

theorem itemMatch_not_sectionClose {t c : Chars} (h : itemMatch t = some c) :
    isSectionClose t = false := by
  cases hsc : isSectionClose t with
  | false => rfl
  | true =>
    obtain ⟨s, hmem, ht⟩ := isSectionClose_eq_true hsc
    rcases mem_sectionTokens_cases hmem with rfl | rfl | rfl | rfl <;>
    · have hnone : itemMatch t = none := by rw [ht]; decide
      rw [hnone] at h
      exact Option.noConfusion h

theorem itemMatch_not_brandOpen {t c : Chars} (h : itemMatch t = some c) :
    brandOpenMatch t = none := by
  cases hbo : brandOpenMatch t with
  | none => rfl
  | some b =>
    exfalso
    obtain ⟨ht2, htok⟩ := brandOpenMatch_shape hbo
    obtain ⟨d, rest2, ht, hd⟩ := itemMatch_shape h
    rw [ht] at ht2
    injection ht2 with h1 h2
    cases b with
    | nil => exact absurd htok (by decide)
    | cons e b' =>
      rw [List.cons_append] at h2
      injection h2 with h3 h4
      rw [← h3, isBrandToken_cons, isDigitCh_not_upperAZ hd, Bool.false_and] at htok
      exact Bool.noConfusion htok

theorem itemMatch_not_brandClose {t c : Chars} (h : itemMatch t = some c) :
    isBrandClose t = false := by
  cases hbc : isBrandClose t with
  | false => rfl
  | true =>
    exfalso
    obtain ⟨mid, ht, -⟩ := isBrandClose_shape hbc
    obtain ⟨d, rest2, ht2, hd⟩ := itemMatch_shape h
    rw [ht] at ht2
    injection ht2 with h1 h2
    injection h2 with h3 h4
    rw [← h3] at hd
    exact absurd hd (by decide)

theorem isSectionClose_not_brandOpen {t : Chars} (h : isSectionClose t = true) :
    brandOpenMatch t = none := by
  obtain ⟨s, hmem, ht⟩ := isSectionClose_eq_true h
  rcases mem_sectionTokens_cases hmem with rfl | rfl | rfl | rfl <;>
    (rw [ht]; decide)

theorem isBrandClose_not_sectionOpen {t : Chars} (h : isBrandClose t = true) :
    sectionOpenMatch t = none := by
  obtain ⟨mid, ht, -⟩ := isBrandClose_shape h
  cases hso : sectionOpenMatch t with
  | none => rfl
  | some s =>
    exfalso
    obtain ⟨hmem, ht2⟩ := sectionOpenMatch_eq_some hso
    rw [ht] at ht2
    injection ht2 with h1 h2
    rcases mem_sectionTokens_cases hmem with rfl | rfl | rfl | rfl <;>
    · have hh := congrArg (fun l : Chars => l.headD ' ') h2
      simp only [List.headD_cons] at hh
      exact absurd hh (by decide)

theorem isBrandClose_not_brandOpen {t : Chars} (h : isBrandClose t = true) :
    brandOpenMatch t = none := by
  obtain ⟨mid, ht, -⟩ := isBrandClose_shape h
  subst ht
  obtain ⟨e, l', hel⟩ := List.exists_cons_of_ne_nil (show mid ++ ['>'] ≠ ([] : Chars) by simp)
  rw [hel]
  have htok : isBrandToken (('/' :: (e :: l')).dropLast) = false := by
    rw [List.dropLast_cons₂, isBrandToken_cons,
      show isUpperAZ '/' = false from by decide, Bool.false_and]
  have heq : brandOpenMatch ('<' :: ('/' :: (e :: l'))) = none := by
    simp only [brandOpenMatch, htok, Bool.and_false]
    rw [if_neg (by simp)]
  exact heq

theorem brandOpenMatch_not_sectionClose {t b : Chars} (h : brandOpenMatch t = some b) :
    isSectionClose t = false := by
  cases hsc : isSectionClose t with
  | false => rfl
  | true =>
    rw [isSectionClose_not_brandOpen hsc] at h
    exact Option.noConfusion h

/-! ## Claim C1: disambiguation of payloads with five or more parts -/

/-- C1: for every item payload splitting on commas into 5 or more parts, when
the trimmed last part is a recognized category token the disambiguator
returns `resource` as the comma-join of the parts between the title and the
last two parts, `image` as the trimmed second-to-last part and `category` as
the trimmed last part; when it is not, `resource` is the comma-join of all
parts after the title except the last, which becomes `image`, and `category`
is empty; and rejoining the split parts recovers the payload exactly
(embedded commas round-trip). -/
theorem c1_five_plus_parts_disambiguation (content : Chars)
    (h5 : 5 ≤ (splitComma content).length) :
    (pyStrip ((splitComma content).getLastD []) ∈ CATEGORY_TOKENS →
      disambiguateFields (splitComma content) =
        some (pyStrip ((splitComma content).headD []),
          joinComma (((splitComma content).drop 1).dropLast.dropLast),
          pyStrip ((splitComma content).dropLast.getLastD []),
          pyStrip ((splitComma content).getLastD [])))
    ∧ (pyStrip ((splitComma content).getLastD []) ∉ CATEGORY_TOKENS →
      disambiguateFields (splitComma content) =
        some (pyStrip ((splitComma content).headD []),
          joinComma (((splitComma content).drop 1).dropLast),
          pyStrip ((splitComma content).getLastD []), ([] : Chars)))
    ∧ joinComma (splitComma content) = content := by
  refine ⟨?_, ?_, joinComma_splitComma content⟩
  · intro hcat
    unfold disambiguateFields
    rw [if_pos (by omega), if_neg (by omega), if_neg (by omega), if_neg (by omega),
      if_pos hcat]
  · intro hcat
    unfold disambiguateFields
    rw [if_pos (by omega), if_neg (by omega), if_neg (by omega), if_neg (by omega),
      if_neg hcat]

/-- Witness for C1 at the spec's round-trip example shape
`Title,a,b,c,img.png,tutorial pdt`. -/
theorem c1_five_plus_parts_disambiguation_witness :
    disambiguateFields (splitComma ("Title,a,b,c,img.png,tutorial pdt".data)) =
      some (("Title".data), ("a,b,c".data), ("img.png".data), ("tutorial pdt".data)) := by
  have h := (c1_five_plus_parts_disambiguation ("Title,a,b,c,img.png,tutorial pdt".data)
    (by decide)).1 (by decide)
  exact h.trans (by decide)

/-! ## Claim C6: category-directory resolution -/

/-- C6 counterexample: an Item whose category is the recognized token
`help pdh` but whose resource starts with `http` does not resolve to the
mapped directory joined with the resource — the URL check runs first and
returns the resource unchanged. -/
theorem c6_counterexample :
    get_resource_path [] (Item.mk ("T".data) ("http://x".data) [] ("help pdh".data))
      = (("http://x".data), [])
    ∧ ("http://x".data) ≠ ("Extras/Help/Help/http://x".data) := by decide

/-- C6 (amended): for every Item whose resource does not start with `http`,
a category equal to a recognized token resolves to that token's mapped
directory joined with `/` and the resource, any other category resolves to
the default directory `Extras/Help/Help`, and in all three cases the
resulting path is appended to the referenced-files list. (Items with an
`http` resource bypass the category mapping entirely.) -/
theorem c6_amended_category_directory (referenced : List Chars) (it : Item)
    (hurl : ("http".data).isPrefixOf it.resource = false) :
    (it.category = ("help pdh".data) →
      get_resource_path referenced it =
        (("Extras/Help/Help".data) ++ '/' :: it.resource,
         referenced ++ [("Extras/Help/Help".data) ++ '/' :: it.resource]))
    ∧ (it.category = ("tutorial pdt".data) →
      get_resource_path referenced it =
        (("Extras/Help/Tutorials".data) ++ '/' :: it.resource,
         referenced ++ [("Extras/Help/Tutorials".data) ++ '/' :: it.resource]))
    ∧ (it.category ≠ ("help pdh".data) → it.category ≠ ("tutorial pdt".data) →
      get_resource_path referenced it =
        (("Extras/Help/Help".data) ++ '/' :: it.resource,
         referenced ++ [("Extras/Help/Help".data) ++ '/' :: it.resource])) := by
  unfold get_resource_path
  rw [if_neg (by simp [hurl])]
  refine ⟨?_, ?_, ?_⟩
  · intro hc
    simp [PDF_DIRS, List.lookup, hc]
  · intro hc
    simp [PDF_DIRS, List.lookup, hc]
  · intro hc1 hc2
    have l1 : (it.category == ("help pdh".data)) = false := by simp [hc1]
    have l2 : (it.category == ("tutorial pdt".data)) = false := by simp [hc2]
    simp [PDF_DIRS, List.lookup, l1, l2]

/-- Witness for C6 (amended) at a concrete tutorial-category item. -/
theorem c6_amended_witness :
    get_resource_path [] (Item.mk ("T".data) ("a.pdf".data) [] ("tutorial pdt".data))
      = (("Extras/Help/Tutorials/a.pdf".data), [("Extras/Help/Tutorials/a.pdf".data)]) := by
  have h := (c6_amended_category_directory []
    (Item.mk ("T".data) ("a.pdf".data) [] ("tutorial pdt".data)) (by decide)).2.1 (by decide)
  exact h.trans (by decide)

/-! ## Claim C7: URL resources are returned unchanged, with no side effect -/

/-- C7: an Item whose resource begins with `http` resolves to the resource
string unchanged, and the referenced-files list is returned exactly as it
was (no element appended). -/
theorem c7_url_resource_identity (referenced : List Chars) (it : Item)
    (hurl : ("http".data).isPrefixOf it.resource = true) :
    get_resource_path referenced it = (it.resource, referenced) := by
  unfold get_resource_path
  rw [if_pos hurl]

/-- Witness for C7 at a concrete URL item and a nonempty referenced list. -/
theorem c7_url_resource_identity_witness :
    get_resource_path [("a.pdf".data)] (Item.mk ("T".data) ("http://x".data) [] [])
      = (("http://x".data), [("a.pdf".data)]) :=
  c7_url_resource_identity [("a.pdf".data)] (Item.mk ("T".data) ("http://x".data) [] [])
    (by decide)

/-! ## Claim C8: missing primary input fails before any output -/

/-- C8: when the primary inventory document does not exist, `transform`
fails with a caller-visible error and writes no output file at all; when it
exists, both outputs are written (HTML first, checklist second). -/
theorem c8_missing_primary_fatal :
    transform none = Except.error ("HelpIndex.txt not found".data)
    ∧ ∀ lines, transform (some lines) = Except.ok [OutputFile.html, OutputFile.checklist] :=
  ⟨rfl, fun _ => rfl⟩

/-! ## Claim C2: empty groups in the output -/

/-- C2 counterexample: a document consisting of one brand tag pair with no
items yields a brand that is present in the parser output paired with an
empty section group, so the output does contain a brand with zero retained
items. -/
theorem c2_counterexample :
    parse_help_index [("<ZEBRA>".data), ("</ZEBRA>".data)]
      = [(("ZEBRA".data), ([] : SectionDict))] := by decide

/-! ## Claim C3: items after a brand close / brand open -/

/-- C3 counterexample: after `</AAA>` (which clears only the brand) a new
`<BBB>` opens, and the very next item line — before any new section tag — is
emitted into BBB under the section HELP left open by the previous brand, so
the item is not skipped. -/
theorem c3_counterexample :
    parse_help_index
      [("<AAA>".data), ("<HELP>".data), ("</AAA>".data), ("<BBB>".data), ("<1>T,r</1>".data)]
      = [(("AAA".data), []),
         (("BBB".data), [(("HELP".data), [Item.mk ("T".data) ("r".data) [] []])])] := by decide

/-! ## Lemmas about one step of the parse loop -/

theorem containsKey_iff {d : BrandDict} {b : Chars} :
    containsKey d b = true ↔ b ∈ d.map Prod.fst := by
  unfold containsKey
  rw [List.any_eq_true]
  constructor
  · rintro ⟨p, hp, hdec⟩
    rw [decide_eq_true_eq] at hdec
    exact List.mem_map.mpr ⟨p, hp, hdec⟩
  · intro hmem
    obtain ⟨p, hp, hpe⟩ := List.mem_map.mp hmem
    exact ⟨p, hp, by rw [decide_eq_true_eq]; exact hpe⟩

theorem updateBrand_map_fst (d : BrandDict) (b : Chars) (f : SectionDict → SectionDict) :
    (updateBrand d b f).map Prod.fst = d.map Prod.fst := by
  unfold updateBrand
  rw [List.map_map]
  apply List.map_congr_left
  intro p hp
  by_cases h : p.1 = b <;> simp [h]

theorem appendItem_ne_nil {sd : SectionDict} {s : Chars} {it : Item}
    (h : ∀ q ∈ sd, q.2 ≠ ([] : List Item)) :
    ∀ q ∈ appendItem sd s it, q.2 ≠ ([] : List Item) := by
  intro q hq
  unfold appendItem at hq
  by_cases hc : sd.any (fun q' => decide (q'.1 = s)) = true
  · rw [if_pos hc] at hq
    obtain ⟨q0, hq0, hqe⟩ := List.mem_map.mp hq
    by_cases hs : q0.1 = s
    · rw [if_pos hs] at hqe
      rw [← hqe]
      simp
    · rw [if_neg hs] at hqe
      rw [← hqe]
      exact h q0 hq0
  · rw [if_neg hc] at hq
    rcases List.mem_append.mp hq with h1 | h2
    · exact h q h1
    · have : q = (s, [it]) := by simpa using h2
      rw [this]
      simp

/-- Complete case analysis of the effect of one loop iteration on the brand
dictionary: unchanged, a new brand registered with an empty section group, or
an item appended to the current brand and section. -/
theorem stepStripped_dict_cases (st : PState) (t : Chars) :
    (stepStripped st t).dict = st.dict ∨
    (∃ b, sectionOpenMatch t = none ∧ brandOpenMatch t = some b ∧
      containsKey st.dict b = false ∧ (stepStripped st t).dict = st.dict ++ [(b, [])]) ∨
    (∃ b s it, st.curBrand = some b ∧ st.curSection = some s ∧
      (stepStripped st t).dict = updateBrand st.dict b (fun sd => appendItem sd s it)) := by
  cases hso : sectionOpenMatch t with
  | some s => exact Or.inl (by simp [stepStripped, hso])
  | none =>
    cases hsc : isSectionClose t with
    | true => exact Or.inl (by simp [stepStripped, hso, hsc])
    | false =>
      cases hbo : brandOpenMatch t with
      | some b =>
        cases hck : containsKey st.dict b with
        | true => exact Or.inl (by simp [stepStripped, hso, hsc, hbo, hck])
        | false =>
          exact Or.inr (Or.inl ⟨b, rfl, rfl, hck,
            by simp [stepStripped, hso, hsc, hbo, hck]⟩)
      | none =>
        cases hbc : isBrandClose t with
        | true => exact Or.inl (by simp [stepStripped, hso, hsc, hbo, hbc])
        | false =>
          cases hcb : st.curBrand with
          | none => exact Or.inl (by simp [stepStripped, hso, hsc, hbo, hbc, hcb])
          | some b =>
            cases hcs : st.curSection with
            | none => exact Or.inl (by simp [stepStripped, hso, hsc, hbo, hbc, hcb, hcs])
            | some s =>
              cases hit : itemMatch t with
              | none =>
                exact Or.inl (by simp [stepStripped, hso, hsc, hbo, hbc, hcb, hcs, hit])
              | some raw =>
                by_cases hcond : pyStrip raw ≠ [] ∧ toUpperChars (pyStrip raw) ≠ ("EMPTY".data)
                · cases hmk : mkItem (pyStrip raw) with
                  | none =>
                    exact Or.inl
                      (by simp [stepStripped, hso, hsc, hbo, hbc, hcb, hcs, hit, hcond, hmk])
                  | some it =>
                    exact Or.inr (Or.inr ⟨b, s, it, rfl, rfl,
                      by simp [stepStripped, hso, hsc, hbo, hbc, hcb, hcs, hit, hcond.1,
                        hcond.2, hmk]⟩)
                · exact Or.inl
                    (by simp [stepStripped, hso, hsc, hbo, hbc, hcb, hcs, hit, hcond])

/-- The brand keys after one loop iteration: the stripped line's brand event
(if any) inserted in first-seen fashion. -/
theorem stepStripped_keys (st : PState) (t : Chars) :
    (stepStripped st t).dict.map Prod.fst =
      match strippedBrandEvent t with
      | some b => insertFirstSeen (st.dict.map Prod.fst) b
      | none => st.dict.map Prod.fst := by
  cases hso : sectionOpenMatch t with
  | some s => simp [stepStripped, strippedBrandEvent, hso]
  | none =>
    cases hsc : isSectionClose t with
    | true =>
      simp [stepStripped, strippedBrandEvent, hso, hsc, isSectionClose_not_brandOpen hsc]
    | false =>
      cases hbo : brandOpenMatch t with
      | some b =>
        cases hck : containsKey st.dict b with
        | true =>
          have hmem : b ∈ st.dict.map Prod.fst := containsKey_iff.mp hck
          simp [stepStripped, strippedBrandEvent, insertFirstSeen, hso, hsc, hbo, hck, hmem]
        | false =>
          have hmem : b ∉ st.dict.map Prod.fst := by
            intro hm
            rw [containsKey_iff.mpr hm] at hck
            exact Bool.noConfusion hck
          simp [stepStripped, strippedBrandEvent, insertFirstSeen, hso, hsc, hbo, hck, hmem]
      | none =>
        cases hbc : isBrandClose t with
        | true => simp [stepStripped, strippedBrandEvent, hso, hsc, hbo, hbc]
        | false =>
          cases hcb : st.curBrand with
          | none =>
            simp [stepStripped, strippedBrandEvent, hso, hsc, hbo, hbc, hcb]
          | some b =>
            cases hcs : st.curSection with
            | none => simp [stepStripped, strippedBrandEvent, hso, hsc, hbo, hbc, hcb, hcs]
            | some s =>
              cases hit : itemMatch t with
              | none =>
                simp [stepStripped, strippedBrandEvent, hso, hsc, hbo, hbc, hcb, hcs, hit]
              | some raw =>
                by_cases hcond : pyStrip raw ≠ [] ∧ toUpperChars (pyStrip raw) ≠ ("EMPTY".data)
                · cases hmk : mkItem (pyStrip raw) with
                  | none =>
                    simp [stepStripped, strippedBrandEvent, hso, hsc, hbo, hbc, hcb, hcs,
                      hit, hcond.1, hcond.2, hmk]
                  | some it =>
                    simp [stepStripped, strippedBrandEvent, hso, hsc, hbo, hbc, hcb, hcs,
                      hit, hcond.1, hcond.2, hmk, updateBrand_map_fst]
                · simp [stepStripped, strippedBrandEvent, hso, hsc, hbo, hbc, hcb, hcs,
                    hit, hcond]

/-- The `step` phrased form of `stepStripped_dict_cases`. -/
theorem step_dict_cases (st : PState) (l : Chars) :
    (step st l).dict = st.dict ∨
    (∃ b, sectionOpenMatch (pyStrip l) = none ∧ brandOpenMatch (pyStrip l) = some b ∧
      containsKey st.dict b = false ∧ (step st l).dict = st.dict ++ [(b, [])]) ∨
    (∃ b s it, st.curBrand = some b ∧ st.curSection = some s ∧
      (step st l).dict = updateBrand st.dict b (fun sd => appendItem sd s it)) :=
  stepStripped_dict_cases st (pyStrip l)

/-- The `step` phrased form of `stepStripped_keys`. -/
theorem step_keys (st : PState) (l : Chars) :
    (step st l).dict.map Prod.fst =
      match lineBrandEvent l with
      | some b => insertFirstSeen (st.dict.map Prod.fst) b
      | none => st.dict.map Prod.fst :=
  stepStripped_keys st (pyStrip l)

/-! ## Claim C2 (amended): sections are never empty, brands can be -/

theorem parse_sections_nonempty_aux (lines : List Chars) : ∀ st : PState,
    (∀ p ∈ st.dict, ∀ q ∈ p.2, q.2 ≠ ([] : List Item)) →
    ∀ p ∈ (lines.foldl step st).dict, ∀ q ∈ p.2, q.2 ≠ ([] : List Item) := by
  induction lines with
  | nil => exact fun st h => h
  | cons l ls ih =>
    intro st h
    rw [List.foldl_cons]
    apply ih
    rcases step_dict_cases st l with hd | ⟨b, -, -, -, hd⟩ | ⟨b, s, it, -, -, hd⟩
    · rw [hd]
      exact h
    · rw [hd]
      intro p hp q hq
      rcases List.mem_append.mp hp with hp1 | hp2
      · exact h p hp1 q hq
      · have hpe : p = (b, ([] : SectionDict)) := by simpa using hp2
        rw [hpe] at hq
        simp at hq
    · rw [hd]
      intro p hp q hq
      unfold updateBrand at hp
      obtain ⟨p0, hp0, hpe⟩ := List.mem_map.mp hp
      by_cases hb : p0.1 = b
      · rw [if_pos hb] at hpe
        rw [← hpe] at hq
        exact appendItem_ne_nil (h p0 hp0) q hq
      · rw [if_neg hb] at hpe
        rw [← hpe] at hq
        exact h p0 hp0 q hq

/-- C2 (amended): every section entry present anywhere in the parser output
has at least one retained item (empty sections are never emitted); however,
as `c2_counterexample` shows, a brand whose tags enclose no retained items
is still present, paired with an empty section group. -/
theorem c2_amended_sections_nonempty (lines : List Chars) (b : Chars) (sd : SectionDict)
    (hmem : (b, sd) ∈ parse_help_index lines) (s : Chars) (its : List Item)
    (hsec : (s, its) ∈ sd) : its ≠ [] :=
  parse_sections_nonempty_aux lines (PState.mk [] none none) (by simp) (b, sd) hmem
    (s, its) hsec

/-- Witness for C2 (amended) at a concrete one-item document. -/
theorem c2_amended_witness : ([Item.mk ("T".data) ("r".data) [] []] : List Item) ≠ [] :=
  c2_amended_sections_nonempty
    [("<A>".data), ("<HELP>".data), ("<1>T,r</1>".data)]
    ("A".data) [(("HELP".data), [Item.mk ("T".data) ("r".data) [] []])]
    (by decide) ("HELP".data) [Item.mk ("T".data) ("r".data) [] []] (by decide)

/-! ## Claim C5: brands are listed in first-seen order -/

theorem foldl_keys_aux (lines : List Chars) : ∀ st : PState,
    ((lines.foldl step st).dict).map Prod.fst =
      (lines.filterMap lineBrandEvent).foldl insertFirstSeen (st.dict.map Prod.fst) := by
  induction lines with
  | nil => intro st; rfl
  | cons l ls ih =>
    intro st
    rw [List.foldl_cons]
    cases hev : lineBrandEvent l with
    | none =>
      have hk : (step st l).dict.map Prod.fst = st.dict.map Prod.fst := by
        rw [step_keys st l, hev]
      rw [List.filterMap_cons_none hev, ih (step st l), hk]
    | some b =>
      have hk : (step st l).dict.map Prod.fst = insertFirstSeen (st.dict.map Prod.fst) b := by
        rw [step_keys st l, hev]
      rw [List.filterMap_cons_some hev, List.foldl_cons, ih (step st l), hk]

/-- C5: the brands of the parser output appear exactly in first-seen order of
their (non-section) opening tags in the document — the first-seen fold keeps
the position of a brand seen again later and is independent of the lexical
order of the brand tokens. -/
theorem c5_brand_first_seen_order (lines : List Chars) :
    (parse_help_index lines).map Prod.fst = firstSeen (brandEvents lines) :=
  foldl_keys_aux lines (PState.mk [] none none)

/-! ## Claim C10: no brand identifier is a section token -/

theorem brandOpen_not_sectionToken {t b : Chars} (hso : sectionOpenMatch t = none)
    (hbo : brandOpenMatch t = some b) : b ∉ sectionTokens := by
  intro hmem
  obtain ⟨ht, -⟩ := brandOpenMatch_shape hbo
  unfold sectionOpenMatch at hso
  rw [List.find?_eq_none] at hso
  apply hso b hmem
  show (t == '<' :: (b ++ ['>'])) = true
  rw [ht]
  simp

theorem parse_keys_not_section_aux (lines : List Chars) : ∀ st : PState,
    (∀ p ∈ st.dict, p.1 ∉ sectionTokens) →
    ∀ p ∈ (lines.foldl step st).dict, p.1 ∉ sectionTokens := by
  induction lines with
  | nil => exact fun st h => h
  | cons l ls ih =>
    intro st h
    rw [List.foldl_cons]
    apply ih
    rcases step_dict_cases st l with hd | ⟨b, hso, hbo, -, hd⟩ | ⟨b, s, it, -, -, hd⟩
    · rw [hd]
      exact h
    · rw [hd]
      intro p hp
      rcases List.mem_append.mp hp with hp1 | hp2
      · exact h p hp1
      · have hpe : p = (b, ([] : SectionDict)) := by simpa using hp2
        rw [hpe]
        exact brandOpen_not_sectionToken hso hbo
    · rw [hd]
      intro p hp
      unfold updateBrand at hp
      obtain ⟨p0, hp0, hpe⟩ := List.mem_map.mp hp
      by_cases hb : p0.1 = b
      · rw [if_pos hb] at hpe
        rw [← hpe]
        exact h p0 hp0
      · rw [if_neg hb] at hpe
        rw [← hpe]
        exact h p0 hp0

/-- C10: no brand identifier in the parser output equals one of the four
section tokens — the section-open pattern is tried before the brand pattern,
so a section tag line never registers a brand. -/
theorem c10_no_section_token_brand (lines : List Chars) (b : Chars) (sd : SectionDict)
    (hmem : (b, sd) ∈ parse_help_index lines) : b ∉ sectionTokens :=
  parse_keys_not_section_aux lines (PState.mk [] none none) (by simp) (b, sd) hmem

/-- Witness for C10 at a concrete one-brand document. -/
theorem c10_no_section_token_brand_witness : ("ZEB".data) ∉ sectionTokens :=
  c10_no_section_token_brand [("<ZEB>".data)] ("ZEB".data) [] (by decide)

/-! ## Claim C9: the EMPTY sentinel is discarded -/

theorem step_skip_empty_item {st : PState} {l raw : Chars}
    (hit : itemMatch (pyStrip l) = some raw)
    (hempty : toUpperChars (pyStrip raw) = ("EMPTY".data)) : step st l = st := by
  show stepStripped st (pyStrip l) = st
  cases hcb : st.curBrand with
  | none =>
    cases hcs : st.curSection <;>
      simp [stepStripped, itemMatch_not_sectionOpen hit, itemMatch_not_sectionClose hit,
        itemMatch_not_brandOpen hit, itemMatch_not_brandClose hit, hit, hcb, hcs]
  | some b =>
    cases hcs : st.curSection with
    | none =>
      simp [stepStripped, itemMatch_not_sectionOpen hit, itemMatch_not_sectionClose hit,
        itemMatch_not_brandOpen hit, itemMatch_not_brandClose hit, hit, hcb, hcs]
    | some s =>
      simp [stepStripped, itemMatch_not_sectionOpen hit, itemMatch_not_sectionClose hit,
        itemMatch_not_brandOpen hit, itemMatch_not_brandClose hit, hit, hcb, hcs, hempty]

/-- C9: an item line whose payload strips to the sentinel `EMPTY` in any
letter case leaves the parse of the whole document exactly as if the line
were absent — no Item for it appears anywhere in the output. -/
theorem c9_empty_sentinel_discarded (pre post : List Chars) (l raw : Chars)
    (hit : itemMatch (pyStrip l) = some raw)
    (hempty : toUpperChars (pyStrip raw) = ("EMPTY".data)) :
    parse_help_index (pre ++ l :: post) = parse_help_index (pre ++ post) := by
  unfold parse_help_index
  rw [List.foldl_append, List.foldl_append, List.foldl_cons,
    step_skip_empty_item hit hempty]

/-- Witness for C9: a mixed-case `Empty` item line drops out of a parse. -/
theorem c9_empty_sentinel_discarded_witness :
    parse_help_index
        ([("<A>".data), ("<HELP>".data)] ++ ("<2>Empty</2>".data) :: [("<1>T,r</1>".data)])
      = parse_help_index ([("<A>".data), ("<HELP>".data)] ++ [("<1>T,r</1>".data)]) :=
  c9_empty_sentinel_discarded [("<A>".data), ("<HELP>".data)] [("<1>T,r</1>".data)]
    ("<2>Empty</2>".data) ("Empty".data) (by decide) (by decide)

/-! ## Claim C3 (amended): items need both a current brand and a current
section; brand tags do not reset the section -/

theorem step_brandClose {st : PState} {l : Chars} (h1 : isBrandClose (pyStrip l) = true)
    (h2 : isSectionClose (pyStrip l) = false) :
    step st l = { st with curBrand := none } := by
  show stepStripped st (pyStrip l) = _
  simp [stepStripped, isBrandClose_not_sectionOpen h1, h2, isBrandClose_not_brandOpen h1, h1]

theorem step_item_no_section {st : PState} {l raw : Chars}
    (hit : itemMatch (pyStrip l) = some raw) (hsec : st.curSection = none) :
    step st l = st := by
  show stepStripped st (pyStrip l) = st
  cases hcb : st.curBrand <;>
    simp [stepStripped, itemMatch_not_sectionOpen hit, itemMatch_not_sectionClose hit,
      itemMatch_not_brandOpen hit, itemMatch_not_brandClose hit, hit, hcb, hsec]

theorem allItems_append_empty (d : BrandDict) (b : Chars) :
    allItems (d ++ [(b, [])]) = allItems d := by
  unfold allItems
  rw [List.map_append, List.flatten_append]
  simp

/-- C3 (amended): a closing brand tag clears only the current brand, never
the current section. Hence after a brand close and a new brand open, an item
line arriving before any new section tag is skipped (contributing no item
anywhere) precisely when no section remained open; as `c3_counterexample`
shows, a section left unclosed by the previous brand lets such an item
through into the new brand. -/
theorem c3_amended_item_needs_open_section (st : PState) (lc lb li : Chars)
    (hc1 : isBrandClose (pyStrip lc) = true)
    (hc2 : isSectionClose (pyStrip lc) = false)
    (hb1 : ∃ tok, brandOpenMatch (pyStrip lb) = some tok)
    (hb2 : sectionOpenMatch (pyStrip lb) = none)
    (hi : ∃ raw, itemMatch (pyStrip li) = some raw)
    (hsec : st.curSection = none) :
    allItems ((step (step (step st lc) lb) li).dict) = allItems st.dict := by
  obtain ⟨tok, hb1⟩ := hb1
  obtain ⟨raw, hi⟩ := hi
  have s1 : step st lc = { st with curBrand := none } := step_brandClose hc1 hc2
  have hcs1 : (step st lc).curSection = none := by rw [s1]; exact hsec
  have hb3 : isSectionClose (pyStrip lb) = false := brandOpenMatch_not_sectionClose hb1
  by_cases hck : containsKey (step st lc).dict tok = true
  · have s2 : step (step st lc) lb =
        PState.mk (step st lc).dict (some tok) (step st lc).curSection := by
      show stepStripped _ (pyStrip lb) = _
      simp [stepStripped, hb2, hb3, hb1, hck]
    have hcs2 : (step (step st lc) lb).curSection = none := by rw [s2]; exact hcs1
    rw [step_item_no_section hi hcs2, s2, s1]
  · have hck' : containsKey (step st lc).dict tok = false := by
      cases h : containsKey (step st lc).dict tok
      · rfl
      · exact absurd h hck
    have s2 : step (step st lc) lb =
        PState.mk ((step st lc).dict ++ [(tok, [])]) (some tok) (step st lc).curSection := by
      show stepStripped _ (pyStrip lb) = _
      simp [stepStripped, hb2, hb3, hb1, hck']
    have hcs2 : (step (step st lc) lb).curSection = none := by rw [s2]; exact hcs1
    rw [step_item_no_section hi hcs2, s2]
    show allItems ((step st lc).dict ++ [(tok, [])]) = allItems st.dict
    rw [allItems_append_empty, s1]

/-- Witness for C3 (amended) at a concrete brand-close / brand-open / item
line triple with no open section. -/
theorem c3_amended_witness :
    allItems ((step (step (step (PState.mk [(("A".data), [])] (some ("A".data)) none)
        ("</A>".data)) ("<B>".data)) ("<1>T,r</1>".data)).dict)
      = allItems [(("A".data), [])] :=
  c3_amended_item_needs_open_section
    (PState.mk [(("A".data), [])] (some ("A".data)) none)
    ("</A>".data) ("<B>".data) ("<1>T,r</1>".data)
    (by decide) (by decide) ⟨("B".data), by decide⟩ (by decide)
    ⟨("T,r".data), by decide⟩ rfl

/-! ## Claim C4: fuzzy resolution over the Listing Index -/

theorem bestOf_cons_ne_none (sp : Chars × Nat) (rest : List (Chars × Nat)) :
    bestOf (sp :: rest) ≠ none := by
  simp only [bestOf]
  cases bestOf rest with
  | none => simp
  | some b =>
    by_cases h : sp.2 < b.2 <;> simp [h]

/-- The function `bestOf` returns the first candidate achieving the maximum score. -/
theorem bestOf_first_max : ∀ (l : List (Chars × Nat)) (b : Chars × Nat), bestOf l = some b →
    ∃ i, ∃ hi : i < l.length, l[i] = b ∧
      (∀ j, ∀ hj : j < l.length, (l[j]).2 ≤ b.2) ∧
      (∀ j, ∀ hj : j < l.length, j < i → (l[j]).2 < b.2) := by
  intro l
  induction l with
  | nil => intro b h; simp [bestOf] at h
  | cons sp rest ih =>
    intro b h
    simp only [bestOf] at h
    cases hr : bestOf rest with
    | none =>
      rw [hr] at h
      injection h with hb
      have hrest : rest = [] := by
        cases rest with
        | nil => rfl
        | cons x xs => exact absurd hr (bestOf_cons_ne_none x xs)
      subst hrest
      subst hb
      refine ⟨0, by simp, by simp, ?_, ?_⟩
      · intro j hj
        have hj0 : j = 0 := by
          simp at hj
          omega
        subst hj0
        simp
      · intro j hj hji
        omega
    | some br =>
      rw [hr] at h
      have h' : (if sp.2 < br.2 then some br else some sp) = some b := h
      obtain ⟨i, hi, hg, hmax, hfirst⟩ := ih br hr
      by_cases hlt : sp.2 < br.2
      · rw [if_pos hlt] at h'
        injection h' with hb
        subst hb
        refine ⟨i + 1, by simp; omega, by simpa using hg, ?_, ?_⟩
        · intro j hj
          cases j with
          | zero => simpa using le_of_lt hlt
          | succ j' =>
            rw [List.getElem_cons_succ]
            exact hmax j' (by simp at hj; omega)
        · intro j hj hji
          cases j with
          | zero => simpa using hlt
          | succ j' =>
            rw [List.getElem_cons_succ]
            exact hfirst j' (by simp at hj; omega) (by omega)
      · rw [if_neg hlt] at h'
        injection h' with hb
        subst hb
        refine ⟨0, by simp, by simp, ?_, ?_⟩
        · intro j hj
          cases j with
          | zero => simp
          | succ j' =>
            rw [List.getElem_cons_succ]
            exact le_trans (hmax j' (by simp at hj; omega)) (by omega)
        · intro j hj hji
          omega

/-- C4: in the listing-index resolution mode, when no exact description
match exists, the resolver is unmatched (`none`) when every candidate shares
fewer than 2 lowercase words with the query; a returned path always belongs
to the first candidate of strictly maximal word-set intersection, with at
least 2 common words; and conversely, whenever some candidate has at least 2
common words, is scored at least as high as every candidate and strictly
higher than every earlier one (ties go to the first-encountered candidate),
that candidate's path is what the resolver returns. -/
theorem c4_fuzzy_match_spec (query : Chars) (cands : List (Chars × Chars))
    (hex : cands.lookup query = none) :
    ((∀ dp ∈ cands, fuzzyScore query dp.1 < 2) → resolve_listing query cands = none)
    ∧ (∀ p, resolve_listing query cands = some p →
        ∃ i, ∃ hi : i < cands.length,
          (cands[i]).2 = p ∧ 2 ≤ fuzzyScore query (cands[i]).1 ∧
          (∀ j, ∀ hj : j < cands.length,
            fuzzyScore query (cands[j]).1 ≤ fuzzyScore query (cands[i]).1) ∧
          (∀ j, ∀ hj : j < cands.length, j < i →
            fuzzyScore query (cands[j]).1 < fuzzyScore query (cands[i]).1))
    ∧ (∀ i, ∀ hi : i < cands.length,
        2 ≤ fuzzyScore query (cands[i]).1 →
        (∀ j, ∀ hj : j < cands.length,
          fuzzyScore query (cands[j]).1 ≤ fuzzyScore query (cands[i]).1) →
        (∀ j, ∀ hj : j < cands.length, j < i →
          fuzzyScore query (cands[j]).1 < fuzzyScore query (cands[i]).1) →
        resolve_listing query cands = some ((cands[i]).2)) := by
  have hres : resolve_listing query cands = fuzzy_match query cands := by
    unfold resolve_listing
    rw [hex]
  rw [hres]
  refine ⟨?_, ?_, ?_⟩
  · intro hall
    unfold fuzzy_match
    cases hbo : bestOf (cands.map (fun dp => (dp.2, fuzzyScore query dp.1))) with
    | none => rfl
    | some bs =>
      obtain ⟨i, hi, hg, -, -⟩ := bestOf_first_max _ bs hbo
      have hmem : bs ∈ cands.map (fun dp => (dp.2, fuzzyScore query dp.1)) := by
        rw [← hg]
        exact List.getElem_mem hi
      obtain ⟨dp, hdp, hde⟩ := List.mem_map.mp hmem
      have hs2 : bs.2 < 2 := by
        rw [← hde]
        exact hall dp hdp
      show (if 2 ≤ bs.2 then some bs.1 else none) = none
      rw [if_neg (by omega)]
  · intro p hp
    unfold fuzzy_match at hp
    cases hbo : bestOf (cands.map (fun dp => (dp.2, fuzzyScore query dp.1))) with
    | none =>
      rw [hbo] at hp
      exact absurd hp (by simp)
    | some bs =>
      rw [hbo] at hp
      have hp' : (if 2 ≤ bs.2 then some bs.1 else none) = some p := hp
      by_cases h2 : 2 ≤ bs.2
      · rw [if_pos h2] at hp'
        injection hp' with hps
        obtain ⟨i, hi, hg, hmax, hfirst⟩ := bestOf_first_max _ bs hbo
        have hlen : i < cands.length := by
          simpa using hi
        have hgi := hg
        rw [List.getElem_map] at hgi
        have hfst : (cands[i]).2 = bs.1 := congrArg Prod.fst hgi
        have hsnd : fuzzyScore query (cands[i]).1 = bs.2 := congrArg Prod.snd hgi
        refine ⟨i, hlen, by rw [hfst, hps], by rw [hsnd]; exact h2, ?_, ?_⟩
        · intro j hj
          have hj' : j < (cands.map (fun dp => (dp.2, fuzzyScore query dp.1))).length := by
            simpa using hj
          have hmj := hmax j hj'
          rw [List.getElem_map] at hmj
          rw [hsnd]
          exact hmj
        · intro j hj hji
          have hj' : j < (cands.map (fun dp => (dp.2, fuzzyScore query dp.1))).length := by
            simpa using hj
          have hmj := hfirst j hj' hji
          rw [List.getElem_map] at hmj
          rw [hsnd]
          exact hmj
      · rw [if_neg h2] at hp'
        exact absurd hp' (by simp)
  · intro i hi h2 hmax hfirst
    have hne : (cands.map (fun dp => (dp.2, fuzzyScore query dp.1))) ≠ [] := by
      intro h0
      rw [← List.length_eq_zero, List.length_map] at h0
      omega
    obtain ⟨x, xs, hxs⟩ := List.exists_cons_of_ne_nil hne
    unfold fuzzy_match
    cases hbo : bestOf (cands.map (fun dp => (dp.2, fuzzyScore query dp.1))) with
    | none =>
      rw [hxs] at hbo
      exact absurd hbo (bestOf_cons_ne_none x xs)
    | some bs =>
      obtain ⟨i2, hi2, hg2, hmax2, hfirst2⟩ := bestOf_first_max _ bs hbo
      have hlen2 : i2 < cands.length := by
        simpa using hi2
      have hgi2 := hg2
      rw [List.getElem_map] at hgi2
      have hfst2 : (cands[i2]).2 = bs.1 := congrArg Prod.fst hgi2
      have hsnd2 : fuzzyScore query (cands[i2]).1 = bs.2 := congrArg Prod.snd hgi2
      have hii : i = i2 := by
        rcases Nat.lt_trichotomy i i2 with hlt | heq | hgt
        · exfalso
          have ha := hfirst2 i (by simpa using hi) hlt
          have ha' : fuzzyScore query (cands[i]).1 < bs.2 := by
            rw [List.getElem_map] at ha
            exact ha
          have hb := hmax i2 hlen2
          omega
        · exact heq
        · exfalso
          have ha := hfirst i2 hlen2 hgt
          have hb := hmax2 i (by simpa using hi)
          have hb' : fuzzyScore query (cands[i]).1 ≤ bs.2 := by
            rw [List.getElem_map] at hb
            exact hb
          omega
      subst hii
      show (if 2 ≤ bs.2 then some bs.1 else none) = some ((cands[i]).2)
      rw [if_pos (by omega)]
      exact congrArg some hfst2.symm

/-- Witness for C4: a singleton index whose only description shares no word
with the query yields an unmatched result, and on the spec's example the
two-common-word candidate `p1` is actually selected over the zero-overlap
candidate `p2`. -/
theorem c4_fuzzy_match_spec_witness :
    resolve_listing ("xx yy".data) [(("aa bb".data), ("p".data))] = none
    ∧ resolve_listing ("Brand X Quick Start Guide".data)
        [(("Brand X Quick Start".data), ("p1".data)), (("Brand Y Manual".data), ("p2".data))]
      = some ("p1".data) := by
  constructor
  · exact (c4_fuzzy_match_spec ("xx yy".data) [(("aa bb".data), ("p".data))] (by decide)).1
      (by decide)
  · have h := (c4_fuzzy_match_spec ("Brand X Quick Start Guide".data)
      [(("Brand X Quick Start".data), ("p1".data)), (("Brand Y Manual".data), ("p2".data))]
      (by decide)).2.2 0 (by decide) (by decide) (by decide) (by decide)
    exact h.trans (by decide)

end QuiltHelp
